import Mathlib

/-!
Shallow embedding of the ksimple interpreter (a minimal K-family array
language in Rust): the value model (src/lib/value.rs), the tokenizer
(src/lib/token.rs), the verb/adverb dispatch tables (src/lib/runtime.rs)
and the recursive expression evaluator (src/lib/repl.rs).

Machine integers (Rust i64) are modelled as Int with explicit wrapping
(`wrap64`) exactly where the source uses wrapping operations
(wrapping_add, wrapping_neg, wrapping_mul, usize-to-i64 casts).
A Rust panic (out-of-bounds Vec indexing, overflowing `%`) is modelled by
an Option result, `none` standing for the aborted computation; total
source functions are embedded as plain functions.
Source lines are byte sequences (Rust iterates over `line.as_bytes()`),
modelled as `List Nat`.
-/

/-- The i64 maximum value, 2^63 - 1. -/
def I64_MAX : Int := 9223372036854775807

/-- The i64 minimum value, -2^63. -/
def I64_MIN : Int := -9223372036854775808

/-- Wrap an integer into the i64 range, two's complement (Rust wrapping ops). -/
def wrap64 (x : Int) : Int := (x + 9223372036854775808) % 18446744073709551616 - 9223372036854775808

/-- Rust `u8::is_ascii_digit`. -/
def isDigitByte (b : Nat) : Bool := 48 ≤ b && b ≤ 57

/-- Rust `u8::is_ascii_whitespace`: space, tab, newline, form feed, carriage return. -/
def isWhitespaceByte (b : Nat) : Bool := b == 32 || b == 9 || b == 10 || b == 12 || b == 13

/-- Rust `u8::is_ascii_lowercase`. -/
def isLowercaseByte (b : Nat) : Bool := 97 ≤ b && b ≤ 122

/-- Value (src/lib/value.rs): a k/simple value, `Atom(i64)`, `Vector(Rc<Vec<i64>>)` or `Error`. -/
inductive Value where
  | Atom : Int → Value
  | Vector : List Int → Value
  | Error : Value
deriving DecidableEq, Repr

/-- Value::is_error. -/
def Value.is_error : Value → Bool
  | .Error => true
  | _ => false

/-- Helper: whether a value is an atom (Rust matches on the `Value::Atom` constructor). -/
def Value.is_atom : Value → Bool
  | .Atom _ => true
  | _ => false

/-- impl Neg for Value: elementwise `i64::wrapping_neg`. -/
def Value.neg : Value → Value
  | .Atom i => .Atom (wrap64 (-i))
  | .Vector v => .Vector (v.map (fun i => wrap64 (-i)))
  | .Error => .Error

/-- Value::enlist: atom becomes a one-element vector, vector is Err (rank), Error passes through. -/
def Value.enlist : Value → Option Value
  | .Atom i => some (.Vector [i])
  | .Vector _ => none
  | .Error => some .Error

/-- Value::reverse: vector reversed, atom is Err (rank), Error passes through. -/
def Value.reverse : Value → Option Value
  | .Atom _ => none
  | .Vector v => some (.Vector v.reverse)
  | .Error => some .Error

/-- Value::apply_dyadic_verb: elementwise combinator; `none` is Rust `Err(())`
(vector length mismatch).  The Rust (Atom, Vector) arm re-applies with the
operands swapped; that swap is inlined here (it lands in the (Vector, Atom) arm). -/
def Value.apply_dyadic_verb : Value → Value → (Int → Int → Int) → Option Value
  | .Atom a, .Atom b, f => some (.Atom (f a b))
  | .Vector a, .Atom b, f => some (.Vector (a.map (fun x => f x b)))
  | .Atom a, .Vector b, f => some (.Vector (b.map (fun x => f x a)))
  | .Vector a, .Vector b, f =>
      if a.length ≠ b.length then none
      else some (.Vector (List.zipWith f a b))
  | _, _, _ => some .Error

/-- Token (src/lib/token.rs): number literal, global variable byte, symbol byte, or colon. -/
inductive Token where
  | Number : Int → Token
  | Global : Nat → Token
  | Symbol : Nat → Token
  | Colon : Token
deriving DecidableEq, Repr

/-- VERB_TOKENS = " +-!#,@=~&|*" as bytes. -/
def VERB_TOKENS : List Nat := [32, 43, 45, 33, 35, 44, 64, 61, 126, 38, 124, 42]

/-- ADVERB_TOKENS = " /\\" as bytes. -/
def ADVERB_TOKENS : List Nat := [32, 47, 92]

/-- Token::can_start_negative: Colon, or a Symbol occurring in the verb/adverb token strings. -/
def Token.can_start_negative : Token → Bool
  | .Colon => true
  | .Symbol s => VERB_TOKENS.contains s || ADVERB_TOKENS.contains s
  | _ => false

/-- verb_index: position of the byte in VERB_TOKENS, 0 when absent. -/
def verb_index (t : Nat) : Nat := (VERB_TOKENS.findIdx? (· == t)).getD 0

/-- adverb_index: position of the byte in ADVERB_TOKENS, 0 when absent. -/
def adverb_index (t : Nat) : Nat := (ADVERB_TOKENS.findIdx? (· == t)).getD 0

/-- The digit-run accumulator of tokenize_line: fold the decimal digits into an
i64 with a per-digit overflow check (`checked_mul`/`checked_add`); `none` is the
`Err(())` the `?` operator propagates on overflow. -/
def accDigits : Int → List Nat → Option Int
  | v, [] => some v
  | v, d :: ds =>
      if v * 10 + ((d : Int) - 48) > I64_MAX then none
      else accDigits (v * 10 + ((d : Int) - 48)) ds

/-- The main loop of tokenize_line, carrying the tokens emitted so far (the
Rust loop inspects `tokens.last()` for the negative-literal rule).  A maximal
digit run is the `takeWhile`/`dropWhile` split of the remaining bytes.
The `fuel` argument only makes the recursion structural: every iteration of
the Rust loop consumes at least one byte, so one unit of fuel per remaining
byte (what `tokenize_line` supplies) can never run out; see
`tokenize_go_fuel_irrelevant`. -/
def tokenize_go (fuel : Nat) (tokens : List Token) : List Nat → Option (List Token)
  | [] => some tokens
  | b :: rest =>
      match fuel with
      | 0 => none
      | fuel + 1 =>
          if isWhitespaceByte b then tokenize_go fuel tokens rest
          else if b == 58 then tokenize_go fuel (tokens ++ [Token.Colon]) rest
          else
            let csn := (tokens.getLast?.map Token.can_start_negative).getD true
            if b == 45 && csn && (match rest with | r :: _ => isDigitByte r | [] => false) then
              match accDigits 0 (rest.takeWhile isDigitByte) with
              | none => none
              | some v => tokenize_go fuel (tokens ++ [Token.Number (v * (-1))]) (rest.dropWhile isDigitByte)
            else if isDigitByte b then
              match accDigits 0 ((b :: rest).takeWhile isDigitByte) with
              | none => none
              | some v => tokenize_go fuel (tokens ++ [Token.Number (v * 1)]) ((b :: rest).dropWhile isDigitByte)
            else if isLowercaseByte b then tokenize_go fuel (tokens ++ [Token.Global b]) rest
            else tokenize_go fuel (tokens ++ [Token.Symbol b]) rest

/-- tokenize_line: tokenize one line of bytes; `none` is the tokenize failure. -/
def tokenize_line (bytes : List Nat) : Option (List Token) := tokenize_go bytes.length [] bytes

/-! Verb implementations (src/lib/runtime.rs).  Every `report_error` variant
(domain / rank / length / parse / nyi) prints a diagnostic and returns
`Value::Error`; in the embedding they all collapse to `Value.Error`. -/

/-- monadic_negate: `-value` (wrapping elementwise negation). -/
def monadic_negate (value : Value) : Value := value.neg

/-- monadic_enumerate: `0..n` for a non-negative atom, domain error on a
negative atom, rank error on a vector. -/
def monadic_enumerate (value : Value) : Value :=
  match value with
  | .Atom integer =>
      if integer < 0 then .Error
      else .Vector ((List.range integer.toNat).map Int.ofNat)
  | .Vector _ => .Error
  | .Error => .Error

/-- monadic_count: length of a vector (as-cast usize → i64), rank error on an atom. -/
def monadic_count (value : Value) : Value :=
  match value with
  | .Atom _ => .Error
  | .Vector vector => .Atom (wrap64 vector.length)
  | .Error => .Error

/-- monadic_enlist: Value::enlist, rank error when it fails. -/
def monadic_enlist (value : Value) : Value := value.enlist.getD .Error

/-- monadic_reverse: Value::reverse, rank error when it fails. -/
def monadic_reverse (value : Value) : Value := value.reverse.getD .Error

/-- dyadic_add: elementwise `i64::wrapping_add`, domain error on length mismatch. -/
def dyadic_add (left right : Value) : Value :=
  (left.apply_dyadic_verb right (fun a b => wrap64 (a + b))).getD .Error

/-- dyadic_subtract: `dyadic_add(left, -right)`. -/
def dyadic_subtract (left right : Value) : Value := dyadic_add left right.neg

/-- Rust `%` on i64: truncated remainder; panics (`none`) when the divisor is
zero or at the overflowing case `i64::MIN % -1`. -/
def i64_rem (a m : Int) : Option Int :=
  if m = 0 then none
  else if a = I64_MIN ∧ m = -1 then none
  else some (Int.tmod a m)

/-- dyadic_modulo: left must be a nonzero atom (else domain error); each right
element is reduced `% modulus`.  `none` is the Rust panic on `i64::MIN % -1`. -/
def dyadic_modulo (left right : Value) : Option Value :=
  if left.is_error || right.is_error then some .Error
  else
    match left with
    | .Atom modulus =>
        if modulus ≠ 0 then
          match right with
          | .Atom integer => (i64_rem integer modulus).map .Atom
          | .Vector vector => (vector.mapM (fun integer => i64_rem integer modulus)).map .Vector
          | .Error => some .Error
        else some .Error
    | _ => some .Error

/-- dyadic_take: left a non-negative atom count (negative: domain error,
non-atom: rank error); atom right is replicated, vector right is indexed
cyclically by `index.checked_rem(length).unwrap_or(0)`.  `none` is the Rust
out-of-bounds panic of `vector[0]` on an empty vector with a positive count. -/
def dyadic_take (left right : Value) : Option Value :=
  if left.is_error || right.is_error then some .Error
  else
    match left with
    | .Atom integer =>
        if integer ≥ 0 then
          let count := integer.toNat
          match right with
          | .Atom i => some (.Vector (List.replicate count i))
          | .Vector vector =>
              let length := vector.length
              ((List.range count).mapM
                (fun index => vector[if length = 0 then index else index % length]?)).map .Vector
          | .Error => some .Error
        else some .Error
    | _ => some .Error

/-- dyadic_concatenate: atoms are enlisted first, then vector ++ vector; the
Rust recursion through `enlist` is unfolded into the four shape cases. -/
def dyadic_concatenate (left right : Value) : Value :=
  match left, right with
  | .Error, _ => .Error
  | _, .Error => .Error
  | .Atom a, .Atom b => .Vector [a, b]
  | .Atom a, .Vector b => .Vector (a :: b)
  | .Vector a, .Atom b => .Vector (a ++ [b])
  | .Vector a, .Vector b => .Vector (a ++ b)

/-- dyadic_index_at: left must be a vector (atom: rank error); an atom index
must lie in `0 ≤ i ≤ length` (length error otherwise), `i = length` reading the
default 0; a vector of indices reads elementwise with `max(index, 0)` and
default 0 when out of range. -/
def dyadic_index_at (left right : Value) : Value :=
  if left.is_error || right.is_error then .Error
  else
    match left with
    | .Vector left_vector =>
        match right with
        | .Atom index_integer =>
            if index_integer < 0 ∨ left_vector.length < index_integer.toNat then .Error
            else .Atom (left_vector[index_integer.toNat]?.getD 0)
        | .Vector indices =>
            .Vector (indices.map (fun index => (left_vector[(max index 0).toNat]?).getD 0))
        | .Error => .Error
    | .Atom _ => .Error
    | .Error => .Error

/-- monadic_first: dyadic index-at with right index 0. -/
def monadic_first (value : Value) : Value := dyadic_index_at value (.Atom 0)

/-- dyadic_equal: elementwise 1/0 equality. -/
def dyadic_equal (left right : Value) : Value :=
  (left.apply_dyadic_verb right (fun a b => if a = b then 1 else 0)).getD .Error

/-- dyadic_not_equal: elementwise 1/0 inequality. -/
def dyadic_not_equal (left right : Value) : Value :=
  (left.apply_dyadic_verb right (fun a b => if a ≠ b then 1 else 0)).getD .Error

/-- dyadic_and: elementwise bitwise AND (two's complement). -/
def dyadic_and (left right : Value) : Value :=
  (left.apply_dyadic_verb right (fun a b => Int.land a b)).getD .Error

/-- dyadic_or: elementwise bitwise OR (two's complement). -/
def dyadic_or (left right : Value) : Value :=
  (left.apply_dyadic_verb right (fun a b => Int.lor a b)).getD .Error

/-- dyadic_product: elementwise `i64::wrapping_mul`. -/
def dyadic_product (left right : Value) : Value :=
  (left.apply_dyadic_verb right (fun a b => wrap64 (a * b))).getD .Error

/-- apply_monadic_verb: the MONADIC_VERBS table, index 0 and any index past the
table being `monadic_not_a_verb` (domain error), the unimplemented monadic
slots (+ = ~ & *) being `monadic_not_implemented` (nyi error). -/
def apply_monadic_verb (verb_index : Nat) (value : Value) : Value :=
  match verb_index with
  | 2 => monadic_negate value
  | 3 => monadic_enumerate value
  | 4 => monadic_count value
  | 5 => monadic_enlist value
  | 6 => monadic_first value
  | 10 => monadic_reverse value
  | _ => .Error

/-- apply_dyadic_verb: the DYADIC_VERBS table, index 0 and any index past the
table being `dyadic_not_a_verb` (domain error).  The partial entries (modulo,
take) make the whole table `Option`-valued; the total entries always succeed. -/
def apply_dyadic_verb (verb_index : Nat) (left right : Value) : Option Value :=
  match verb_index with
  | 1 => some (dyadic_add left right)
  | 2 => some (dyadic_subtract left right)
  | 3 => dyadic_modulo left right
  | 4 => dyadic_take left right
  | 5 => some (dyadic_concatenate left right)
  | 6 => some (dyadic_index_at left right)
  | 7 => some (dyadic_equal left right)
  | 8 => some (dyadic_not_equal left right)
  | 9 => some (dyadic_and left right)
  | 10 => some (dyadic_or left right)
  | 11 => some (dyadic_product left right)
  | _ => some .Error

/-- The fold loop of adverb_over: `vector.iter().fold(0.into(), ...)` with the
accumulator threaded through the (possibly panicking) dyadic table. -/
def foldGo (verb_index : Nat) : Value → List Int → Option Value
  | result, [] => some result
  | result, integer :: rest =>
      match apply_dyadic_verb verb_index result (.Atom integer) with
      | none => none
      | some v => foldGo verb_index v rest

/-- adverb_over: atom returned unchanged; vector folded left-to-right from
atom 0; Error passed through. -/
def adverb_over (verb_index : Nat) (value : Value) : Option Value :=
  match value with
  | .Atom _ => some value
  | .Vector vector => foldGo verb_index (.Atom 0) vector
  | .Error => some .Error

/-- The loop of adverb_scan: the running accumulator is applied to each further
element; an atom result is recorded and kept, any other result records 0 and
degrades the accumulator to Error. -/
def scanGo (verb_index : Nat) : Value → List Int → List Int → Option (List Int)
  | _, output, [] => some output
  | result, output, integer :: rest =>
      match apply_dyadic_verb verb_index result (.Atom integer) with
      | none => none
      | some (.Atom value) => scanGo verb_index (.Atom value) (output ++ [value]) rest
      | some _ => scanGo verb_index .Error (output ++ [0]) rest

/-- adverb_scan: atom returned unchanged; empty vector gives an empty vector;
otherwise the first element seeds both accumulator and output. -/
def adverb_scan (verb_index : Nat) (value : Value) : Option Value :=
  match value with
  | .Atom _ => some value
  | .Vector vector =>
      match vector with
      | [] => some (.Vector [])
      | first :: rest => (scanGo verb_index (.Atom first) [first] rest).map .Vector
  | .Error => some .Error

/-- apply_adverb: the ADVERBS table `[identity, adverb_over, adverb_scan]`,
any out-of-table index falling back to the identity closure. -/
def apply_adverb (adverb_index verb_index : Nat) (value : Value) : Option Value :=
  match adverb_index with
  | 1 => adverb_over verb_index value
  | 2 => adverb_scan verb_index value
  | _ => some value

/-- Runtime (src/lib/runtime.rs): the 26 global variables a-z. -/
structure Runtime where
  globals : Fin 26 → Value

/-- Runtime::new: every global starts as `Atom(0)`. -/
def Runtime.new : Runtime := ⟨fun _ => Value.Atom 0⟩

/-- Runtime::noun_from_token: a Number becomes an atom, a Global is looked up
(`none` is the Rust panic when the byte is not a lowercase letter, from the
wrapping `name - b'a'` subtraction or the out-of-bounds slot index), anything
else converts to Error. -/
def Runtime.noun_from_token (r : Runtime) (token : Token) : Option Value :=
  match token with
  | .Number value => some (.Atom value)
  | .Global name =>
      if h : 97 ≤ name ∧ name - 97 < 26 then some (r.globals ⟨name - 97, h.2⟩)
      else none
  | _ => some .Error

/-- Runtime::assign_global: store the value in the slot and return it. -/
def Runtime.assign_global (r : Runtime) (index : Fin 26) (value : Value) : Runtime × Value :=
  (⟨Function.update r.globals index value⟩, value)

/-- The recursion of evaluate_expression (src/lib/repl.rs): the grammar-driven
recursive evaluator.  The token-slice match arms are reproduced in the Rust
order; a guard failure falls through to the later arms exactly as the Rust
`match` does.  `none` is a Rust panic (a Global token whose byte is not a
lowercase letter, or a panicking verb); every reported error is the
`Value.Error` result.  The `fuel` argument only makes the recursion structural:
every recursive call is on a strictly shorter token slice, so one unit of fuel
per token (what `evaluate_expression` supplies) can never run out; see
`evalGo_fuel_irrelevant`. -/
def evalGo : Nat → Runtime → List Token → Option (Runtime × Value)
  | _, r, [] => some (r, Value.Error)
  | _, r, [token] => (r.noun_from_token token).map (fun v => (r, v))
  | 0, _, _ :: _ :: _ => none
  | fuel + 1, r, Token.Symbol verb :: tail@(Token.Symbol adverb :: rest) =>
      if verb_index verb ≠ 0 then
        if adverb_index adverb ≠ 0 then
          match evalGo fuel r rest with
          | none => none
          | some (r2, operand) =>
              if operand.is_error then some (r2, operand)
              else (apply_adverb (adverb_index adverb) (verb_index verb) operand).map
                (fun v => (r2, v))
        else
          match evalGo fuel r tail with
          | none => none
          | some (r2, operand) =>
              if operand.is_error then some (r2, operand)
              else some (r2, apply_monadic_verb (verb_index verb) operand)
      else some (r, Value.Error)
  | fuel + 1, r, Token.Symbol verb :: tail@(_ :: _) =>
      if verb_index verb ≠ 0 then
        match evalGo fuel r tail with
        | none => none
        | some (r2, operand) =>
            if operand.is_error then some (r2, operand)
            else some (r2, apply_monadic_verb (verb_index verb) operand)
      else some (r, Value.Error)
  | fuel + 1, r, Token.Global name :: Token.Colon :: rest =>
      match evalGo fuel r rest with
      | none => none
      | some (r2, right_value) =>
          if right_value.is_error then some (r2, right_value)
          else if h : 97 ≤ name ∧ name - 97 < 26 then
            some (r2.assign_global ⟨name - 97, h.2⟩ right_value)
          else none
  | fuel + 1, r, left_token :: Token.Symbol op :: rest =>
      match r.noun_from_token left_token with
      | none => none
      | some left_value =>
          if left_value.is_error then some (r, Value.Error)
          else
            match evalGo fuel r rest with
            | none => none
            | some (r2, right_value) =>
                if right_value.is_error then some (r2, right_value)
                else if verb_index op = 0 then some (r2, Value.Error)
                else (apply_dyadic_verb (verb_index op) left_value right_value).map
                  (fun v => (r2, v))
  | _ + 1, r, _ :: _ :: _ => some (r, Value.Error)

/-- evaluate_expression: the evaluator with fuel covering the token slice. -/
def evaluate_expression (r : Runtime) (tokens : List Token) : Option (Runtime × Value) :=
  evalGo tokens.length r tokens

/-- One line of `run_batch`/`run_repl` evaluation after another, threading the
runtime; `none` when some line panics. -/
def runLines (r : Runtime) : List (List Token) → Option Runtime
  | [] => some r
  | tokens :: rest =>
      match evaluate_expression r tokens with
      | none => none
      | some (r2, _) => runLines r2 rest

/-- The invariant of claim C10: no global slot holds the Error value. -/
def GlobalsOk (r : Runtime) : Prop := ∀ i : Fin 26, (r.globals i).is_error = false

/-- The fuel of `tokenize_go` is irrelevant as soon as it covers the remaining
bytes: the Rust loop terminates because every iteration consumes at least one
byte, and `tokenize_line` hands one unit of fuel per byte. -/
theorem tokenize_go_fuel_irrelevant (fuel fuel2 : Nat) (tokens : List Token) (bytes : List Nat)
    (h : bytes.length ≤ fuel) (h2 : bytes.length ≤ fuel2) :
    tokenize_go fuel tokens bytes = tokenize_go fuel2 tokens bytes := by
  induction fuel generalizing fuel2 tokens bytes with
  | zero =>
      have hb : bytes = [] := List.length_eq_zero.mp (Nat.le_zero.mp h)
      subst hb
      cases fuel2 <;> rfl
  | succ fuel ih =>
      cases bytes with
      | nil => cases fuel2 <;> rfl
      | cons b rest =>
          cases fuel2 with
          | zero => exact absurd h2 (by simp)
          | succ fuel2 =>
              have hr : rest.length ≤ fuel := by simpa using h
              have hr2 : rest.length ≤ fuel2 := by simpa using h2
              have hdw : (rest.dropWhile isDigitByte).length ≤ rest.length :=
                (List.dropWhile_sublist _).length_le
              simp only [tokenize_go]
              split
              · exact ih fuel2 _ _ hr hr2
              · split
                · exact ih fuel2 _ _ hr hr2
                · split
                  · cases accDigits 0 (rest.takeWhile isDigitByte) with
                    | none => rfl
                    | some v => exact ih fuel2 _ _ (le_trans hdw hr) (le_trans hdw hr2)
                  · split
                    · rename_i hdig
                      rw [List.dropWhile_cons_of_pos hdig]
                      cases accDigits 0 ((b :: rest).takeWhile isDigitByte) with
                      | none => rfl
                      | some v => exact ih fuel2 _ _ (le_trans hdw hr) (le_trans hdw hr2)
                    · split
                      · exact ih fuel2 _ _ hr hr2
                      · exact ih fuel2 _ _ hr hr2

/-- The fuel of `evalGo` is irrelevant as soon as it covers the token slice:
the Rust recursion terminates because every recursive call is on a strictly
shorter slice, and `evaluate_expression` hands one unit of fuel per token. -/
theorem evalGo_fuel_irrelevant (fuel fuel2 : Nat) (r : Runtime) (tokens : List Token)
    (h : tokens.length ≤ fuel) (h2 : tokens.length ≤ fuel2) :
    evalGo fuel r tokens = evalGo fuel2 r tokens := by
  induction fuel generalizing fuel2 r tokens with
  | zero =>
      have hb : tokens = [] := List.length_eq_zero.mp (Nat.le_zero.mp h)
      subst hb
      cases fuel2 <;> rfl
  | succ fuel ih =>
      match tokens with
      | [] => cases fuel2 <;> rfl
      | [token] =>
          cases fuel2 with
          | zero => exact absurd h2 (by simp)
          | succ fuel2 => simp only [evalGo]
      | t1 :: t2 :: rest =>
          cases fuel2 with
          | zero => exact absurd h2 (by simp)
          | succ fuel2 =>
              have hr : rest.length ≤ fuel := by
                have := h; simp only [List.length_cons] at this; omega
              have hr2 : rest.length ≤ fuel2 := by
                have := h2; simp only [List.length_cons] at this; omega
              have ht : (t2 :: rest).length ≤ fuel := by
                have := h; simp only [List.length_cons] at this; simp only [List.length_cons]; omega
              have ht2 : (t2 :: rest).length ≤ fuel2 := by
                have := h2; simp only [List.length_cons] at this; simp only [List.length_cons]; omega
              cases t1 with
              | Symbol verb =>
                  cases t2 with
                  | Symbol adverb =>
                      simp only [evalGo]
                      rw [ih fuel2 r rest hr hr2, ih fuel2 r (Token.Symbol adverb :: rest) ht ht2]
                  | Number n =>
                      simp only [evalGo]
                      rw [ih fuel2 r (Token.Number n :: rest) ht ht2]
                  | Global g =>
                      simp only [evalGo]
                      rw [ih fuel2 r (Token.Global g :: rest) ht ht2]
                  | Colon =>
                      simp only [evalGo]
                      rw [ih fuel2 r (Token.Colon :: rest) ht ht2]
              | Global name =>
                  cases t2 with
                  | Colon =>
                      simp only [evalGo]
                      rw [ih fuel2 r rest hr hr2]
                  | Symbol op =>
                      simp only [evalGo]
                      rw [ih fuel2 r rest hr hr2]
                  | Number n => rfl
                  | Global g => rfl
              | Number n =>
                  cases t2 with
                  | Symbol op =>
                      simp only [evalGo]
                      rw [ih fuel2 r rest hr hr2]
                  | Number m => rfl
                  | Global g => rfl
                  | Colon => rfl
              | Colon =>
                  cases t2 with
                  | Symbol op =>
                      simp only [evalGo]
                      rw [ih fuel2 r rest hr hr2]
                  | Number m => rfl
                  | Global g => rfl
                  | Colon => rfl

/-! Helper lemmas shared by the claim theorems. -/

/-- Mapping an Option-valued function over a list succeeds with the same
length when it succeeds on every element. -/
theorem mapM_some_of_forall_isSome {α β : Type} (f : α → Option β) :
    ∀ l : List α, (∀ a ∈ l, (f a).isSome = true) →
      ∃ w : List β, l.mapM f = some w ∧ w.length = l.length := by
  intro l
  induction l with
  | nil => exact fun _ => ⟨[], rfl, rfl⟩
  | cons a tl ih =>
      intro h
      obtain ⟨b, hb⟩ := Option.isSome_iff_exists.mp (h a (List.mem_cons_self a tl))
      obtain ⟨w, hw, hlen⟩ := ih (fun x hx => h x (List.mem_cons_of_mem a hx))
      exact ⟨b :: w, by rw [List.mapM_cons, hb, hw]; rfl, by simp [hlen]⟩

/-- A successful scan loop appends exactly one output element per remaining
input element. -/
theorem scanGo_prefix (verb_index : Nat) :
    ∀ (rest : List Int) (acc : Value) (output res : List Int),
      scanGo verb_index acc output rest = some res →
      ∃ t : List Int, res = output ++ t ∧ t.length = rest.length := by
  intro rest
  induction rest with
  | nil =>
      intro acc output res h
      simp only [scanGo, Option.some.injEq] at h
      exact ⟨[], by simp [h], rfl⟩
  | cons i tl ih =>
      intro acc output res h
      simp only [scanGo] at h
      cases happ : apply_dyadic_verb verb_index acc (Value.Atom i) with
      | none => rw [happ] at h; cases h
      | some u =>
          rw [happ] at h
          cases u with
          | Atom value =>
              obtain ⟨t, ht, hlen⟩ := ih _ _ _ h
              exact ⟨value :: t, by simp [ht], by simp [hlen]⟩
          | Vector w =>
              obtain ⟨t, ht, hlen⟩ := ih _ _ _ h
              exact ⟨0 :: t, by simp [ht], by simp [hlen]⟩
          | Error =>
              obtain ⟨t, ht, hlen⟩ := ih _ _ _ h
              exact ⟨0 :: t, by simp [ht], by simp [hlen]⟩

/-! The claim theorems. -/

/-- C9: for every non-negative atom n, monadic enumerate returns the vector
[0, 1, ..., n-1] of length n; every negative atom is a domain error (Error);
every vector operand is a rank error (Error). -/
theorem spec_C9_enumerate :
    (∀ n : Int, 0 ≤ n → ∃ v : List Int,
        monadic_enumerate (Value.Atom n) = Value.Vector v ∧ v.length = n.toNat ∧
        ∀ i : Nat, i < n.toNat → v[i]? = some (i : Int)) ∧
    (∀ n : Int, n < 0 → monadic_enumerate (Value.Atom n) = Value.Error) ∧
    (∀ v : List Int, monadic_enumerate (Value.Vector v) = Value.Error) := by
  refine ⟨?_, ?_, ?_⟩
  · intro n hn
    refine ⟨(List.range n.toNat).map Int.ofNat, ?_, by simp, ?_⟩
    · simp [monadic_enumerate, not_lt.mpr hn]
    · intro i hi
      rw [List.getElem?_map, List.getElem?_range hi]
      rfl
  · intro n hn
    simp [monadic_enumerate, hn]
  · intro v
    rfl

/-- C9 witness: the theorem applied at n = 3. -/
theorem spec_C9_enumerate_witness :
    ∃ v : List Int, monadic_enumerate (Value.Atom 3) = Value.Vector v ∧
      v.length = (3 : Int).toNat ∧ ∀ i : Nat, i < (3 : Int).toNat → v[i]? = some (i : Int) :=
  spec_C9_enumerate.1 3 (by decide)

/-- C8: dyadic index-at on a vector of length L: an atom index i yields element
i when 0 ≤ i < L, yields Atom 0 when i = L, and is a length error (Error) for
every other i; an atom left operand is a rank error (Error); a vector right
operand yields, elementwise, the element at max(index, 0) when in range and 0
when out of range, never failing. -/
theorem spec_C8_index_at :
    (∀ (v : List Int) (i : Int) (h0 : 0 ≤ i) (h : i.toNat < v.length),
        dyadic_index_at (Value.Vector v) (Value.Atom i) = Value.Atom (v.get ⟨i.toNat, h⟩)) ∧
    (∀ (v : List Int) (i : Int), 0 ≤ i → i.toNat = v.length →
        dyadic_index_at (Value.Vector v) (Value.Atom i) = Value.Atom 0) ∧
    (∀ (v : List Int) (i : Int), i < 0 ∨ v.length < i.toNat →
        dyadic_index_at (Value.Vector v) (Value.Atom i) = Value.Error) ∧
    (∀ (a : Int) (r : Value), dyadic_index_at (Value.Atom a) r = Value.Error) ∧
    (∀ (v indices : List Int), ∃ w : List Int,
        dyadic_index_at (Value.Vector v) (Value.Vector indices) = Value.Vector w ∧
        w.length = indices.length ∧
        ∀ j : Nat, j < indices.length →
          w[j]? = some ((v[(max (indices.getD j 0) 0).toNat]?).getD 0)) := by
  refine ⟨?_, ?_, ?_, ?_, ?_⟩
  · intro v i h0 h
    simp only [dyadic_index_at, Value.is_error, Bool.or_self, Bool.false_eq_true,
      if_false, reduceCtorEq]
    rw [if_neg (by omega)]
    rw [List.getElem?_eq_getElem h]
    simp [List.get_eq_getElem]
  · intro v i h0 h
    simp only [dyadic_index_at, Value.is_error, Bool.or_self, Bool.false_eq_true,
      if_false, reduceCtorEq]
    rw [if_neg (by omega)]
    rw [List.getElem?_eq_none (by omega)]
    rfl
  · intro v i h
    simp only [dyadic_index_at, Value.is_error, Bool.or_self, Bool.false_eq_true,
      if_false, reduceCtorEq]
    rw [if_pos (by omega)]
  · intro a r
    cases r <;> rfl
  · intro v indices
    refine ⟨_, rfl, by simp, ?_⟩
    intro j hj
    rw [List.getElem?_map, List.getElem?_eq_getElem hj]
    simp [List.getD_eq_getElem?_getD, List.getElem?_eq_getElem hj]

/-- C8 witness: the theorem applied to the vector [10, 20, 30] at index 1,
at index 3 (the permitted one-past-the-end index), at index 4 (length error),
to an atom left operand, and to a vector of indices. -/
theorem spec_C8_index_at_witness :
    dyadic_index_at (Value.Vector [10, 20, 30]) (Value.Atom 1)
        = Value.Atom (([10, 20, 30] : List Int).get ⟨(1 : Int).toNat, by decide⟩) ∧
    dyadic_index_at (Value.Vector [10, 20, 30]) (Value.Atom 3) = Value.Atom 0 ∧
    dyadic_index_at (Value.Vector [10, 20, 30]) (Value.Atom 4) = Value.Error ∧
    dyadic_index_at (Value.Atom 7) (Value.Vector [1]) = Value.Error :=
  ⟨spec_C8_index_at.1 [10, 20, 30] 1 (by decide) (by decide),
   spec_C8_index_at.2.1 [10, 20, 30] 3 (by decide) (by decide),
   spec_C8_index_at.2.2.1 [10, 20, 30] 4 (Or.inr (by decide)),
   spec_C8_index_at.2.2.2.1 7 (Value.Vector [1])⟩

/-- C5 counterexample: the claim asserts dyadic modulo is total for every
nonzero 64-bit modulus, but at right operand i64::MIN and modulus -1 the Rust
remainder overflows and the process panics (modelled as `none`). -/
theorem spec_C5_counterexample :
    dyadic_modulo (Value.Atom (-1)) (Value.Atom I64_MIN) = none := by decide

/-- C5 amended: for every 64-bit atom right operand a and nonzero 64-bit atom
modulus m, except the single overflowing pair (a, m) = (i64::MIN, -1), dyadic
modulo returns Atom (a % m) (truncated remainder) without failing. -/
theorem spec_C5_modulo_amended (a m : Int)
    (ha1 : I64_MIN ≤ a) (ha2 : a ≤ I64_MAX) (hm1 : I64_MIN ≤ m) (hm2 : m ≤ I64_MAX)
    (hm : m ≠ 0) (hov : ¬(a = I64_MIN ∧ m = -1)) :
    dyadic_modulo (Value.Atom m) (Value.Atom a) = some (Value.Atom (Int.tmod a m)) := by
  simp only [dyadic_modulo, Value.is_error, Bool.or_self, Bool.false_eq_true, if_false,
    reduceCtorEq]
  rw [if_pos hm]
  simp only [i64_rem, if_neg hm, if_neg hov]
  rfl

/-- C5 witness: the amended theorem applied at a = 7, m = 3. -/
theorem spec_C5_modulo_amended_witness :
    dyadic_modulo (Value.Atom 3) (Value.Atom 7) = some (Value.Atom (Int.tmod 7 3)) :=
  spec_C5_modulo_amended 7 3 (by decide) (by decide) (by decide) (by decide)
    (by decide) (by decide)

/-- C4 counterexample: the claim asserts dyadic take is total for every
non-negative count and every vector, including the empty vector, but taking 1
element of the empty vector indexes `vector[0]` out of bounds and the process
panics (modelled as `none`). -/
theorem spec_C4_counterexample :
    dyadic_take (Value.Atom 1) (Value.Vector []) = none := by decide

/-- C4 amended: for every non-negative atom count n and every vector right
operand that is non-empty (or with n = 0), dyadic take returns a vector of
length n without failing; the element-indexing branch stays in bounds exactly
when the vector is non-empty or no element is demanded. -/
theorem spec_C4_take_amended (n : Int) (hn : 0 ≤ n) (v : List Int)
    (h : v ≠ [] ∨ n = 0) :
    ∃ w : List Int, dyadic_take (Value.Atom n) (Value.Vector v) = some (Value.Vector w) ∧
      w.length = n.toNat := by
  simp only [dyadic_take, Value.is_error, Bool.or_self, Bool.false_eq_true, if_false,
    reduceCtorEq]
  rw [if_pos hn]
  rcases h with h | h
  · have hlen : v.length ≠ 0 := fun hc => h (List.length_eq_zero.mp hc)
    obtain ⟨w, hw, hwlen⟩ := mapM_some_of_forall_isSome
      (fun index => v[if v.length = 0 then index else index % v.length]?)
      (List.range n.toNat)
      (by
        intro a _
        have hb : a % v.length < v.length := Nat.mod_lt _ (Nat.pos_of_ne_zero hlen)
        simp only [if_neg hlen, List.getElem?_eq_getElem hb, Option.isSome_some])
    refine ⟨w, ?_, by simpa using hwlen⟩
    rw [hw]
    rfl
  · subst h
    exact ⟨[], rfl, rfl⟩

/-- C4 witness: the amended theorem applied at n = 5 and v = [1, 2, 3]. -/
theorem spec_C4_take_amended_witness :
    ∃ w : List Int, dyadic_take (Value.Atom 5) (Value.Vector [1, 2, 3])
        = some (Value.Vector w) ∧ w.length = (5 : Int).toNat :=
  spec_C4_take_amended 5 (by decide) [1, 2, 3] (Or.inl (by decide))

/-- C3: Error is infectious through every entry of the three dispatch tables:
a monadic verb applied to Error yields Error, a dyadic verb with either
operand Error yields Error, and an adverb applied to Error yields Error
(indices outside the tables fall back to the sentinel/identity entries, which
also satisfy this). -/
theorem spec_C3_error_infectious :
    (∀ vi : Nat, apply_monadic_verb vi Value.Error = Value.Error) ∧
    (∀ (vi : Nat) (l r : Value), l = Value.Error ∨ r = Value.Error →
        apply_dyadic_verb vi l r = some Value.Error) ∧
    (∀ ai vi : Nat, apply_adverb ai vi Value.Error = some Value.Error) := by
  refine ⟨?_, ?_, ?_⟩
  · intro vi
    rcases vi with _|_|_|_|_|_|_|_|_|_|_|vi <;> rfl
  · intro vi l r h
    obtain h | h := h
    · subst h
      rcases vi with _|_|_|_|_|_|_|_|_|_|_|_|vi <;> cases r <;> rfl
    · subst h
      rcases vi with _|_|_|_|_|_|_|_|_|_|_|_|vi <;> cases l <;> rfl
  · intro ai vi
    rcases ai with _|_|_|ai <;> rfl

/-- C3 witness: the dyadic part of the theorem applied to the add verb with an
Error left operand. -/
theorem spec_C3_error_infectious_witness :
    apply_dyadic_verb 1 Value.Error (Value.Atom 5) = some Value.Error :=
  spec_C3_error_infectious.2.1 1 Value.Error (Value.Atom 5) (Or.inl rfl)

/-- C2: for every verb index, scan on an empty vector returns an empty vector;
scan on a non-empty vector (when it returns, i.e. when no inner application
panics) returns a vector whose first element is the first operand element
unmodified and which has one element per operand element (scanning continues
to the end); and whenever an intermediate dyadic application yields a
non-atom, the running accumulator becomes Error and 0 is inserted as that
position's output element while the loop continues with the remaining
elements. -/
theorem spec_C2_scan :
    (∀ vi : Nat, adverb_scan vi (Value.Vector []) = some (Value.Vector [])) ∧
    (∀ (vi : Nat) (x : Int) (xs : List Int) (w : Value),
        adverb_scan vi (Value.Vector (x :: xs)) = some w →
        ∃ t : List Int, w = Value.Vector (x :: t) ∧ t.length = xs.length) ∧
    (∀ (vi : Nat) (acc : Value) (output : List Int) (i : Int) (rest : List Int) (u : Value),
        apply_dyadic_verb vi acc (Value.Atom i) = some u → u.is_atom = false →
        scanGo vi acc output (i :: rest) = scanGo vi Value.Error (output ++ [0]) rest) := by
  refine ⟨?_, ?_, ?_⟩
  · intro vi
    rfl
  · intro vi x xs w h
    simp only [adverb_scan, Option.map_eq_some'] at h
    obtain ⟨res, hres, hw⟩ := h
    obtain ⟨t, ht, hlen⟩ := scanGo_prefix vi xs (Value.Atom x) [x] res hres
    exact ⟨t, by rw [← hw, ht]; rfl, hlen⟩
  · intro vi acc output i rest u h hu
    simp only [scanGo, h]
    cases u with
    | Atom value => simp [Value.is_atom] at hu
    | Vector w => rfl
    | Error => rfl

/-- C2 witness: the empty-vector part at the add verb; the non-empty part at
the add verb on [1, 2, 3] (scan returns [1, 3, 6], first element 1 kept); and
the error-insertion part where modulo with the accumulator 0 as modulus yields
Error, so 0 is recorded and the loop continues. -/
theorem spec_C2_scan_witness :
    adverb_scan 1 (Value.Vector []) = some (Value.Vector []) ∧
    (∃ t : List Int, Value.Vector [1, 3, 6] = Value.Vector (1 :: t) ∧ t.length = 2) ∧
    scanGo 3 (Value.Atom 0) [0] [5] = scanGo 3 Value.Error ([0] ++ [0]) [] :=
  ⟨spec_C2_scan.1 1,
   spec_C2_scan.2.1 1 1 [2, 3] (Value.Vector [1, 3, 6]) (by decide),
   spec_C2_scan.2.2 3 (Value.Atom 0) [0] 5 [] Value.Error (by decide) (by decide)⟩

/-- C6 counterexample: the claim says tokenizing `f -5` yields the Global f
followed by the negative literal Number(-5); it does not — a Global token
cannot start a negative number, so `-` becomes a verb symbol. -/
theorem spec_C6_counterexample :
    tokenize_line [102, 32, 45, 53] ≠ some [Token.Global 102, Token.Number (-5)] := by
  decide

/-- C6 amended: a `-` immediately followed by a digit is read as a negative
literal exactly when the preceding token is a Colon or a known verb/adverb
Symbol, or at line start; a preceding Global (or Number) blocks it.  Hence
`f -5` tokenizes like `a-5`, with `-` as a verb symbol, while `: -5` and
line-start `-5` produce the negative literal. -/
theorem spec_C6_negative_literal_amended :
    tokenize_line [102, 32, 45, 53]
        = some [Token.Global 102, Token.Symbol 45, Token.Number 5] ∧
    tokenize_line [58, 32, 45, 53] = some [Token.Colon, Token.Number (-5)] ∧
    tokenize_line [45, 53] = some [Token.Number (-5)] ∧
    tokenize_line [97, 45, 53]
        = some [Token.Global 97, Token.Symbol 45, Token.Number 5] ∧
    (∀ c : Nat, Token.can_start_negative (Token.Global c) = false) ∧
    (∀ n : Int, Token.can_start_negative (Token.Number n) = false) ∧
    Token.can_start_negative Token.Colon = true ∧
    Token.can_start_negative (Token.Symbol 45) = true ∧
    Token.can_start_negative (Token.Symbol 47) = true :=
  ⟨by decide, by decide, by decide, by decide, fun c => rfl, fun n => rfl, rfl,
   by decide, by decide⟩

/-- C7 counterexample: the claim says a line containing a `-` with no digit
after it fails to tokenize; the line `: -` contains such a `-` and tokenizes
successfully to Colon followed by Symbol(-). -/
theorem spec_C7_counterexample :
    tokenize_line [58, 32, 45] = some [Token.Colon, Token.Symbol 45] := by decide

/-- C7 amended: a `-` that is not immediately followed by a digit is never a
tokenize failure: it is emitted as the Symbol `-` and tokenization continues
with the remaining bytes (the malformed-negative check in the source is
unreachable, because the sign is only consumed when the next byte is a
digit). -/
theorem spec_C7_minus_no_digit_amended (fuel : Nat) (tokens : List Token) (rest : List Nat)
    (h : ∀ b : Nat, rest.head? = some b → isDigitByte b = false) :
    tokenize_go (fuel + 1) tokens (45 :: rest) = tokenize_go fuel (tokens ++ [Token.Symbol 45]) rest := by
  cases rest with
  | nil => simp [tokenize_go, isWhitespaceByte, isDigitByte, isLowercaseByte]
  | cons b tl =>
      have hb : isDigitByte b = false := h b rfl
      simp only [tokenize_go, isWhitespaceByte, isDigitByte, isLowercaseByte] at *
      simp [hb]

/-- C7 witness: the amended theorem applied to the single-byte line `-`. -/
theorem spec_C7_minus_no_digit_amended_witness :
    tokenize_go 1 [] [45] = tokenize_go 0 [Token.Symbol 45] [] :=
  spec_C7_minus_no_digit_amended 0 [] [] (fun b hb => nomatch hb)

/-- C1: evaluating the code at the claim's inputs.  Tokenizing `2#1 2 3`
yields Number 2, Symbol #, Number 1, Number 2, Number 3, but the evaluator
grammar has no arm for a bare number strand (`Number, Number, ...` matches
no pattern), so the right operand `1 2 3` is a parse error and the whole
expression evaluates to Error - not to the vector [1, 2] the claim (and the
spec scenario) state; likewise for `5#1 2 3`. -/
theorem spec_C1_take_strand_evaluates_to_error :
    tokenize_line [50, 35, 49, 32, 50, 32, 51]
        = some [Token.Number 2, Token.Symbol 35, Token.Number 1, Token.Number 2, Token.Number 3] ∧
    (evaluate_expression Runtime.new
        [Token.Number 2, Token.Symbol 35, Token.Number 1, Token.Number 2, Token.Number 3]).map
        Prod.snd = some Value.Error ∧
    tokenize_line [53, 35, 49, 32, 50, 32, 51]
        = some [Token.Number 5, Token.Symbol 35, Token.Number 1, Token.Number 2, Token.Number 3] ∧
    (evaluate_expression Runtime.new
        [Token.Number 5, Token.Symbol 35, Token.Number 1, Token.Number 2, Token.Number 3]).map
        Prod.snd = some Value.Error ∧
    (evaluate_expression Runtime.new [Token.Number 1, Token.Number 2, Token.Number 3]).map
        Prod.snd = some Value.Error ∧
    Value.Error ≠ Value.Vector [1, 2] := by decide

/-- Assigning a non-Error value into a slot preserves the global invariant. -/
theorem assign_global_globals_ok (r : Runtime) (i : Fin 26) (value : Value)
    (hg : GlobalsOk r) (hv : value.is_error = false) :
    GlobalsOk (r.assign_global i value).1 := by
  intro j
  by_cases hj : j = i
  · subst hj
    simpa [Runtime.assign_global, Function.update_same] using hv
  · simpa [Runtime.assign_global, Function.update_noteq hj] using hg j

/-- Every successful evaluation preserves the global invariant: the only
mutation of a slot is the assignment arm, which runs only after checking the
bound value is not Error. -/
theorem evalGo_globals_ok (fuel : Nat) :
    ∀ (r : Runtime) (tokens : List Token) (r2 : Runtime) (v : Value),
      GlobalsOk r → evalGo fuel r tokens = some (r2, v) → GlobalsOk r2 := by
  induction fuel with
  | zero =>
      intro r tokens r2 v hg h
      match tokens with
      | [] =>
          simp only [evalGo, Option.some.injEq, Prod.mk.injEq] at h
          exact h.1 ▸ hg
      | [t] =>
          simp only [evalGo, Option.map_eq_some'] at h
          obtain ⟨a, _, hpair⟩ := h
          simp only [Prod.mk.injEq] at hpair
          exact hpair.1 ▸ hg
      | t1 :: t2 :: rest =>
          rw [show evalGo 0 r (t1 :: t2 :: rest) = none from rfl] at h
          cases h
  | succ fuel ih =>
      intro r tokens r2 v hg h
      match tokens with
      | [] =>
          simp only [evalGo, Option.some.injEq, Prod.mk.injEq] at h
          exact h.1 ▸ hg
      | [t] =>
          simp only [evalGo, Option.map_eq_some'] at h
          obtain ⟨a, _, hpair⟩ := h
          simp only [Prod.mk.injEq] at hpair
          exact hpair.1 ▸ hg
      | Token.Symbol verb :: Token.Symbol adverb :: rest =>
          simp only [evalGo] at h
          by_cases hv1 : verb_index verb ≠ 0
          · rw [if_pos hv1] at h
            by_cases ha1 : adverb_index adverb ≠ 0
            · rw [if_pos ha1] at h
              cases hrec : evalGo fuel r rest with
              | none => rw [hrec] at h; exact Option.noConfusion h
              | some p =>
                  obtain ⟨r3, operand⟩ := p
                  simp only [hrec] at h
                  have hg3 := ih r rest r3 operand hg hrec
                  by_cases he : operand.is_error = true
                  · rw [if_pos he] at h
                    simp only [Option.some.injEq, Prod.mk.injEq] at h
                    exact h.1 ▸ hg3
                  · rw [if_neg he] at h
                    simp only [Option.map_eq_some'] at h
                    obtain ⟨u, _, hpair⟩ := h
                    simp only [Prod.mk.injEq] at hpair
                    exact hpair.1 ▸ hg3
            · rw [if_neg ha1] at h
              cases hrec : evalGo fuel r (Token.Symbol adverb :: rest) with
              | none => rw [hrec] at h; exact Option.noConfusion h
              | some p =>
                  obtain ⟨r3, operand⟩ := p
                  simp only [hrec] at h
                  have hg3 := ih r (Token.Symbol adverb :: rest) r3 operand hg hrec
                  by_cases he : operand.is_error = true
                  · rw [if_pos he] at h
                    simp only [Option.some.injEq, Prod.mk.injEq] at h
                    exact h.1 ▸ hg3
                  · rw [if_neg he] at h
                    simp only [Option.some.injEq, Prod.mk.injEq] at h
                    exact h.1 ▸ hg3
          · rw [if_neg hv1] at h
            simp only [Option.some.injEq, Prod.mk.injEq] at h
            exact h.1 ▸ hg
      | Token.Symbol verb :: Token.Number n :: rest =>
          simp only [evalGo] at h
          by_cases hv1 : verb_index verb ≠ 0
          · rw [if_pos hv1] at h
            cases hrec : evalGo fuel r (Token.Number n :: rest) with
            | none => rw [hrec] at h; exact Option.noConfusion h
            | some p =>
                obtain ⟨r3, operand⟩ := p
                simp only [hrec] at h
                have hg3 := ih r (Token.Number n :: rest) r3 operand hg hrec
                by_cases he : operand.is_error = true
                · rw [if_pos he] at h
                  simp only [Option.some.injEq, Prod.mk.injEq] at h
                  exact h.1 ▸ hg3
                · rw [if_neg he] at h
                  simp only [Option.some.injEq, Prod.mk.injEq] at h
                  exact h.1 ▸ hg3
          · rw [if_neg hv1] at h
            simp only [Option.some.injEq, Prod.mk.injEq] at h
            exact h.1 ▸ hg
      | Token.Symbol verb :: Token.Global g :: rest =>
          simp only [evalGo] at h
          by_cases hv1 : verb_index verb ≠ 0
          · rw [if_pos hv1] at h
            cases hrec : evalGo fuel r (Token.Global g :: rest) with
            | none => rw [hrec] at h; exact Option.noConfusion h
            | some p =>
                obtain ⟨r3, operand⟩ := p
                simp only [hrec] at h
                have hg3 := ih r (Token.Global g :: rest) r3 operand hg hrec
                by_cases he : operand.is_error = true
                · rw [if_pos he] at h
                  simp only [Option.some.injEq, Prod.mk.injEq] at h
                  exact h.1 ▸ hg3
                · rw [if_neg he] at h
                  simp only [Option.some.injEq, Prod.mk.injEq] at h
                  exact h.1 ▸ hg3
          · rw [if_neg hv1] at h
            simp only [Option.some.injEq, Prod.mk.injEq] at h
            exact h.1 ▸ hg
      | Token.Symbol verb :: Token.Colon :: rest =>
          simp only [evalGo] at h
          by_cases hv1 : verb_index verb ≠ 0
          · rw [if_pos hv1] at h
            cases hrec : evalGo fuel r (Token.Colon :: rest) with
            | none => rw [hrec] at h; exact Option.noConfusion h
            | some p =>
                obtain ⟨r3, operand⟩ := p
                simp only [hrec] at h
                have hg3 := ih r (Token.Colon :: rest) r3 operand hg hrec
                by_cases he : operand.is_error = true
                · rw [if_pos he] at h
                  simp only [Option.some.injEq, Prod.mk.injEq] at h
                  exact h.1 ▸ hg3
                · rw [if_neg he] at h
                  simp only [Option.some.injEq, Prod.mk.injEq] at h
                  exact h.1 ▸ hg3
          · rw [if_neg hv1] at h
            simp only [Option.some.injEq, Prod.mk.injEq] at h
            exact h.1 ▸ hg
      | Token.Global name :: Token.Colon :: rest =>
          simp only [evalGo] at h
          cases hrec : evalGo fuel r rest with
          | none => rw [hrec] at h; exact Option.noConfusion h
          | some p =>
              obtain ⟨r3, right_value⟩ := p
              simp only [hrec] at h
              have hg3 := ih r rest r3 right_value hg hrec
              by_cases he : right_value.is_error = true
              · rw [if_pos he] at h
                simp only [Option.some.injEq, Prod.mk.injEq] at h
                exact h.1 ▸ hg3
              · rw [if_neg he] at h
                have hv2 : right_value.is_error = false := by
                  cases hc : right_value.is_error
                  · rfl
                  · exact absurd hc he
                by_cases hname : 97 ≤ name ∧ name - 97 < 26
                · rw [dif_pos hname] at h
                  rw [Option.some.injEq] at h
                  have h1 : (r3.assign_global ⟨name - 97, hname.2⟩ right_value).1 = r2 := by
                    rw [h]
                  exact h1 ▸ assign_global_globals_ok r3 ⟨name - 97, hname.2⟩ right_value hg3 hv2
                · rw [dif_neg hname] at h
                  exact Option.noConfusion h
      | Token.Global name :: Token.Symbol op :: rest =>
          simp only [evalGo] at h
          cases hn : Runtime.noun_from_token r (Token.Global name) with
          | none => rw [hn] at h; exact Option.noConfusion h
          | some left_value =>
              simp only [hn] at h
              by_cases hl : left_value.is_error = true
              · rw [if_pos hl] at h
                simp only [Option.some.injEq, Prod.mk.injEq] at h
                exact h.1 ▸ hg
              · rw [if_neg hl] at h
                cases hrec : evalGo fuel r rest with
                | none => rw [hrec] at h; exact Option.noConfusion h
                | some p =>
                    obtain ⟨r3, right_value⟩ := p
                    simp only [hrec] at h
                    have hg3 := ih r rest r3 right_value hg hrec
                    by_cases he : right_value.is_error = true
                    · rw [if_pos he] at h
                      simp only [Option.some.injEq, Prod.mk.injEq] at h
                      exact h.1 ▸ hg3
                    · rw [if_neg he] at h
                      by_cases hz : verb_index op = 0
                      · rw [if_pos hz] at h
                        simp only [Option.some.injEq, Prod.mk.injEq] at h
                        exact h.1 ▸ hg3
                      · rw [if_neg hz] at h
                        simp only [Option.map_eq_some'] at h
                        obtain ⟨u, _, hpair⟩ := h
                        simp only [Prod.mk.injEq] at hpair
                        exact hpair.1 ▸ hg3
      | Token.Number m :: Token.Symbol op :: rest =>
          simp only [evalGo] at h
          cases hn : Runtime.noun_from_token r (Token.Number m) with
          | none => rw [hn] at h; exact Option.noConfusion h
          | some left_value =>
              simp only [hn] at h
              by_cases hl : left_value.is_error = true
              · rw [if_pos hl] at h
                simp only [Option.some.injEq, Prod.mk.injEq] at h
                exact h.1 ▸ hg
              · rw [if_neg hl] at h
                cases hrec : evalGo fuel r rest with
                | none => rw [hrec] at h; exact Option.noConfusion h
                | some p =>
                    obtain ⟨r3, right_value⟩ := p
                    simp only [hrec] at h
                    have hg3 := ih r rest r3 right_value hg hrec
                    by_cases he : right_value.is_error = true
                    · rw [if_pos he] at h
                      simp only [Option.some.injEq, Prod.mk.injEq] at h
                      exact h.1 ▸ hg3
                    · rw [if_neg he] at h
                      by_cases hz : verb_index op = 0
                      · rw [if_pos hz] at h
                        simp only [Option.some.injEq, Prod.mk.injEq] at h
                        exact h.1 ▸ hg3
                      · rw [if_neg hz] at h
                        simp only [Option.map_eq_some'] at h
                        obtain ⟨u, _, hpair⟩ := h
                        simp only [Prod.mk.injEq] at hpair
                        exact hpair.1 ▸ hg3
      | Token.Colon :: Token.Symbol op :: rest =>
          simp only [evalGo] at h
          cases hn : Runtime.noun_from_token r (Token.Colon) with
          | none => rw [hn] at h; exact Option.noConfusion h
          | some left_value =>
              simp only [hn] at h
              by_cases hl : left_value.is_error = true
              · rw [if_pos hl] at h
                simp only [Option.some.injEq, Prod.mk.injEq] at h
                exact h.1 ▸ hg
              · rw [if_neg hl] at h
                cases hrec : evalGo fuel r rest with
                | none => rw [hrec] at h; exact Option.noConfusion h
                | some p =>
                    obtain ⟨r3, right_value⟩ := p
                    simp only [hrec] at h
                    have hg3 := ih r rest r3 right_value hg hrec
                    by_cases he : right_value.is_error = true
                    · rw [if_pos he] at h
                      simp only [Option.some.injEq, Prod.mk.injEq] at h
                      exact h.1 ▸ hg3
                    · rw [if_neg he] at h
                      by_cases hz : verb_index op = 0
                      · rw [if_pos hz] at h
                        simp only [Option.some.injEq, Prod.mk.injEq] at h
                        exact h.1 ▸ hg3
                      · rw [if_neg hz] at h
                        simp only [Option.map_eq_some'] at h
                        obtain ⟨u, _, hpair⟩ := h
                        simp only [Prod.mk.injEq] at hpair
                        exact hpair.1 ▸ hg3
      | Token.Global name :: Token.Number n :: rest =>
          simp only [evalGo, Option.some.injEq, Prod.mk.injEq] at h
          exact h.1 ▸ hg
      | Token.Global name :: Token.Global g :: rest =>
          simp only [evalGo, Option.some.injEq, Prod.mk.injEq] at h
          exact h.1 ▸ hg
      | Token.Number m :: Token.Number n :: rest =>
          simp only [evalGo, Option.some.injEq, Prod.mk.injEq] at h
          exact h.1 ▸ hg
      | Token.Number m :: Token.Global g :: rest =>
          simp only [evalGo, Option.some.injEq, Prod.mk.injEq] at h
          exact h.1 ▸ hg
      | Token.Number m :: Token.Colon :: rest =>
          simp only [evalGo, Option.some.injEq, Prod.mk.injEq] at h
          exact h.1 ▸ hg
      | Token.Colon :: Token.Number n :: rest =>
          simp only [evalGo, Option.some.injEq, Prod.mk.injEq] at h
          exact h.1 ▸ hg
      | Token.Colon :: Token.Global g :: rest =>
          simp only [evalGo, Option.some.injEq, Prod.mk.injEq] at h
          exact h.1 ▸ hg
      | Token.Colon :: Token.Colon :: rest =>
          simp only [evalGo, Option.some.injEq, Prod.mk.injEq] at h
          exact h.1 ▸ hg

/-- Running lines in sequence preserves the global invariant. -/
theorem runLines_globals_ok :
    ∀ (lines : List (List Token)) (r r2 : Runtime),
      GlobalsOk r → runLines r lines = some r2 → GlobalsOk r2 := by
  intro lines
  induction lines with
  | nil =>
      intro r r2 hg h
      simp only [runLines, Option.some.injEq] at h
      exact h ▸ hg
  | cons ts rest ih =>
      intro r r2 hg h
      simp only [runLines] at h
      cases hev : evaluate_expression r ts with
      | none => rw [hev] at h; cases h
      | some p =>
          obtain ⟨r3, v⟩ := p
          rw [hev] at h
          exact ih r3 r2 (evalGo_globals_ok ts.length r ts r3 v hg hev) h

/-- C10: a fresh runtime holds Atom 0 in all 26 slots, a single successful
expression evaluation preserves the invariant that no global slot holds Error
(assignment stores the bound value only after checking it is not Error), and
hence after any sequence of evaluated lines starting from a fresh runtime no
global slot holds Error. -/
theorem spec_C10_globals_never_error :
    GlobalsOk Runtime.new ∧
    (∀ (r : Runtime) (tokens : List Token) (r2 : Runtime) (v : Value),
        GlobalsOk r → evaluate_expression r tokens = some (r2, v) → GlobalsOk r2) ∧
    (∀ (lines : List (List Token)) (r2 : Runtime),
        runLines Runtime.new lines = some r2 → GlobalsOk r2) :=
  ⟨fun _ => rfl,
   fun r tokens r2 v hg h => evalGo_globals_ok tokens.length r tokens r2 v hg h,
   fun lines r2 h => runLines_globals_ok lines Runtime.new r2 (fun _ => rfl) h⟩

/-- C10 witness: the sequence-of-lines part applied to the single line
`a:5` (tokens Global a, Colon, Number 5), whose evaluation assigns Atom 5. -/
theorem spec_C10_globals_never_error_witness :
    GlobalsOk ((runLines Runtime.new
        [[Token.Global 97, Token.Colon, Token.Number 5]]).getD Runtime.new) :=
  spec_C10_globals_never_error.2.2 [[Token.Global 97, Token.Colon, Token.Number 5]] _ rfl
